import Mathlib

/-!
Verification of the numeric core of the firebird C++ client library
(talybin/firebird): the `fb::scaled_integer<T>` fixed-point type
(include/types.hpp and single/firebird.hpp), the `fb::type_converter`
tagged-value conversion layer (include/types.hpp, include/sqlvar.hpp) and
the `fb::timestamp_t` time conversions (include/types.hpp).

Modelling conventions:
  - a C++ signed integer type `T` is represented by its bit width
    `w = 8 * sizeof(T)` (so `sizeof` comparisons become width comparisons)
    together with the range `[smin w, smax w]`; machine values are plain
    `Int` with explicit range side conditions;
  - C++ `/` and `%` on signed integers truncate toward zero: they are
    modelled by `Int.tdiv` and `Int.tmod`;
  - a C++ `throw fb::exception(...)` is modelled by `none` (or by an
    explicit error value where the message content matters);
  - the character buffer handed to `to_string(char*, size_t)` is a
    `List Char`; writes through the buffer pointer are `List.set`.
-/

namespace fb

/-- Smallest value of a `w`-bit two's-complement signed integer type:
models `std::numeric_limits<T>::min()` for `T` with `8 * sizeof(T) = w`. -/
def smin (w : Nat) : Int := -(2 ^ (w - 1))

/-- Largest value of a `w`-bit two's-complement signed integer type:
models `std::numeric_limits<T>::max()`. -/
def smax (w : Nat) : Int := 2 ^ (w - 1) - 1

/-- The value `v` is representable in a `w`-bit signed integer type. -/
def inRange (w : Nat) (v : Int) : Prop := smin w ≤ v ∧ v ≤ smax w

instance (w : Nat) (v : Int) : Decidable (inRange w v) := by
  unfold inRange; infer_instance

/-- Two's-complement wraparound of a value into a `w`-bit signed type.
Used to model the conversion of an out-of-range intermediate to a narrower
signed type (implementation-defined before C++20, modular on every
mainstream implementation and mandated modular since C++20). -/
def wrap (w : Nat) (v : Int) : Int := (v + 2 ^ (w - 1)) % 2 ^ w - 2 ^ (w - 1)

/-! ## scaled_integer<T>::get<U>()  (include/types.hpp lines 112-136) -/

/-- The positive-scale loop of `scaled_integer::get` (types.hpp 127-131):
`for (auto x = 0; x < _scale; ++x) { if (val > umax || val < umin) error; val *= 10; }`.
The guard keeps `val * 10` inside the range of `U`
(`umax = max/10` and `umin = min/10` with C++ truncated division), so the
C++ multiplication never overflows and plain `Int` arithmetic is faithful.
A throw of `fb::exception` is `none`. -/
def mulLoop (umax umin : Int) : Nat → Int → Option Int
  | 0, val => some val
  | n + 1, val =>
    if umax < val ∨ val < umin then none
    else mulLoop umax umin n (val * 10)

/-- The negative-scale loop of `scaled_integer::get` (types.hpp 132-133):
`for (auto x = _scale; x < 0; ++x) val /= 10;` — repeated C++ signed
division by 10, truncating toward zero. -/
def divLoop : Nat → Int → Int
  | 0, val => val
  | n + 1, val => divLoop n (val.tdiv 10)

/-- Model of `scaled_integer<T>::get<U>()` (types.hpp 112-136).
`wT`, `wU` are the bit widths of `T` and `U`; `sizeof(U) < sizeof(T)`
becomes `wU < wT` and takes the unconditional `error<U>()` branch.
Otherwise `U val = _value` (exact, since `wU ≥ wT`), the multiply loop runs
`_scale` times when `_scale > 0`, and the divide loop `-_scale` times when
`_scale < 0`. -/
def get (wT wU : Nat) (value scale : Int) : Option Int :=
  if wU < wT then none
  else
    match mulLoop ((smax wU).tdiv 10) ((smin wU).tdiv 10) scale.toNat value with
    | none => none
    | some v => some (divLoop (-scale).toNat v)

/-- The mathematical value `mantissa * 10 ^ scale`, truncated toward zero
when the scale is negative. -/
def scaledValue (value scale : Int) : Int :=
  if 0 ≤ scale then value * 10 ^ scale.toNat else value.tdiv (10 ^ (-scale).toNat)

/-! ### Arithmetic helper lemmas -/

/-- Truncating division composes: dividing twice by natural constants is
dividing by their product. -/
theorem tdiv_tdiv_nat (v : Int) (a b : Nat) :
    (v.tdiv a).tdiv b = v.tdiv (a * b) := by
  cases v with
  | ofNat m =>
    rw [Int.ofNat_eq_natCast, ← Int.natCast_mul, ← Int.ofNat_tdiv, ← Int.ofNat_tdiv,
      ← Int.ofNat_tdiv, Nat.div_div_eq_div_mul]
  | negSucc m =>
    have h1 : ∀ k : Nat, (Int.negSucc m).tdiv (k : Int) = -((((m + 1) / k : Nat)) : Int) :=
      fun k => rfl
    rw [← Int.natCast_mul, h1 a, h1 (a * b), Int.neg_tdiv, ← Int.ofNat_tdiv,
      Nat.div_div_eq_div_mul]

/-- The divide loop computes truncated division by `10 ^ n`. -/
theorem divLoop_eq (n : Nat) (v : Int) : divLoop n v = v.tdiv (10 ^ n) := by
  induction n generalizing v with
  | zero => simp [divLoop]
  | succ n ih =>
    rw [divLoop, ih]
    rw [show ((10 : Int) = ((10 : Nat) : Int)) from rfl]
    rw [show (((10 : Nat) : Int) ^ n = (((10 : Nat) ^ n : Nat) : Int)) by push_cast; ring]
    rw [tdiv_tdiv_nat]
    congr 1
    push_cast
    ring

/-- The largest representable value is nonnegative. -/
theorem smax_nonneg (w : Nat) : 0 ≤ smax w := by
  have h : (0 : Int) < 2 ^ (w - 1) := by positivity
  unfold smax; omega

/-- The smallest representable value is nonpositive. -/
theorem smin_nonpos (w : Nat) : smin w ≤ 0 := by
  have h : (0 : Int) < 2 ^ (w - 1) := by positivity
  unfold smin; omega

/-- Upper-bound step: if the final product fits below `smax`, every strict
prefix of the multiply loop stays at or below `smax / 10`. -/
theorem le_umax_of_pow_le (w : Nat) (v : Int) (n : Nat) (hn : 0 < n)
    (h : v * 10 ^ n ≤ smax w) : v ≤ (smax w).tdiv 10 := by
  rw [Int.tdiv_eq_ediv (smax_nonneg w) (by norm_num)]
  rcases le_or_lt v 0 with hv | hv
  · exact le_trans hv (Int.ediv_nonneg (smax_nonneg w) (by norm_num))
  · rw [Int.le_ediv_iff_mul_le (by norm_num : (0 : Int) < 10)]
    have h10 : (10 : Int) ≤ 10 ^ n := by
      calc (10 : Int) = 10 ^ 1 := (pow_one 10).symm
      _ ≤ 10 ^ n := pow_le_pow_right₀ (by norm_num) hn
    have : v * 10 ≤ v * 10 ^ n := by
      exact mul_le_mul_of_nonneg_left h10 (le_of_lt hv)
    exact le_trans this h

/-- Lower-bound step: if the final product stays above `smin`, every strict
prefix of the multiply loop stays at or above `smin / 10` (C++ truncated
division, which rounds a negative quotient up). -/
theorem umin_le_of_le_pow (w : Nat) (v : Int) (n : Nat) (hn : 0 < n)
    (h : smin w ≤ v * 10 ^ n) : (smin w).tdiv 10 ≤ v := by
  have hx : (0 : Int) ≤ 2 ^ (w - 1) := by positivity
  have htd : (smin w).tdiv 10 = -((2 ^ (w - 1) : Int) / 10) := by
    unfold smin
    rw [Int.neg_tdiv, Int.tdiv_eq_ediv hx (by norm_num)]
  rw [htd]
  rcases le_or_lt 0 v with hv | hv
  · have : (0 : Int) ≤ (2 ^ (w - 1) : Int) / 10 := Int.ediv_nonneg hx (by norm_num)
    omega
  · have h10 : (10 : Int) ≤ 10 ^ n := by
      calc (10 : Int) = 10 ^ 1 := (pow_one 10).symm
      _ ≤ 10 ^ n := pow_le_pow_right₀ (by norm_num) hn
    have hstep : v * 10 ^ n ≤ v * 10 := by
      exact mul_le_mul_of_nonpos_left h10 (le_of_lt hv)
    have hm : smin w ≤ v * 10 := le_trans h hstep
    have : -v ≤ (2 ^ (w - 1) : Int) / 10 := by
      rw [Int.le_ediv_iff_mul_le (by norm_num : (0 : Int) < 10)]
      unfold smin at hm; omega
    omega

/-- When the mathematical product fits the target range, the multiply loop
of `get` never trips its overflow guard and returns the exact product. -/
theorem mulLoop_ok (w : Nat) (n : Nat) (v : Int)
    (hlo : smin w ≤ v * 10 ^ n) (hhi : v * 10 ^ n ≤ smax w) :
    mulLoop ((smax w).tdiv 10) ((smin w).tdiv 10) n v = some (v * 10 ^ n) := by
  induction n generalizing v with
  | zero => simp [mulLoop]
  | succ n ih =>
    have hstep : v * 10 * 10 ^ n = v * 10 ^ (n + 1) := by ring
    have hhi' : v ≤ (smax w).tdiv 10 := le_umax_of_pow_le w v (n + 1) (Nat.succ_pos n) hhi
    have hlo' : (smin w).tdiv 10 ≤ v := umin_le_of_le_pow w v (n + 1) (Nat.succ_pos n) hlo
    rw [mulLoop, if_neg (by omega)]
    rw [ih (v * 10) (by rw [hstep]; exact hlo) (by rw [hstep]; exact hhi), hstep]

/-- The multiply loop fails exactly when some iteration sees an accumulator
above `umax` or below `umin` before multiplying. -/
theorem mulLoop_none_iff (umax umin : Int) (n : Nat) (v : Int) :
    mulLoop umax umin n v = none ↔
      ∃ x, x < n ∧ (umax < v * 10 ^ x ∨ v * 10 ^ x < umin) := by
  induction n generalizing v with
  | zero =>
    simp [mulLoop]
  | succ n ih =>
    rw [mulLoop]
    by_cases hg : umax < v ∨ v < umin
    · rw [if_pos hg]
      constructor
      · intro _
        exact ⟨0, Nat.succ_pos n, by simpa using hg⟩
      · intro _; rfl
    · rw [if_neg hg, ih]
      constructor
      · rintro ⟨x, hx, hb⟩
        refine ⟨x + 1, by omega, ?_⟩
        have : v * 10 * 10 ^ x = v * 10 ^ (x + 1) := by ring
        rw [this] at hb
        exact hb
      · rintro ⟨x, hx, hb⟩
        cases x with
        | zero => simp at hb; omega
        | succ x =>
          refine ⟨x, by omega, ?_⟩
          have : v * 10 * 10 ^ x = v * 10 ^ (x + 1) := by ring
          rw [this]
          exact hb

/-- A successful multiply loop returns exactly the accumulated product. -/
theorem mulLoop_some (umax umin : Int) (n : Nat) (v r : Int)
    (h : mulLoop umax umin n v = some r) : r = v * 10 ^ n := by
  induction n generalizing v with
  | zero =>
    simp [mulLoop] at h
    simp [← h]
  | succ n ih =>
    rw [mulLoop] at h
    by_cases hg : umax < v ∨ v < umin
    · rw [if_pos hg] at h; cases h
    · rw [if_neg hg] at h
      have := ih (v * 10) h
      rw [this]; ring

/-- C1: for every `scaled_integer<T>(mantissa, scale)` and target width
`wU ≥ wT`, if the mathematical value `mantissa * 10 ^ scale` (truncated
toward zero for negative scale) is representable in `U`, then `get<U>()`
succeeds and returns exactly that value. -/
theorem claim_C1_get_exact (wT wU : Nat) (value scale : Int) (hw : wT ≤ wU)
    (hval : inRange wT value) (hfit : inRange wU (scaledValue value scale)) :
    get wT wU value scale = some (scaledValue value scale) := by
  rw [get, if_neg (by omega)]
  rcases le_or_lt 0 scale with hs | hs
  · have hneg : (-scale).toNat = 0 := Int.toNat_of_nonpos (by omega)
    rw [scaledValue, if_pos hs] at hfit
    rw [mulLoop_ok wU scale.toNat value hfit.1 hfit.2, hneg]
    rw [scaledValue, if_pos hs]
    rfl
  · have hz : scale.toNat = 0 := Int.toNat_of_nonpos (by omega)
    rw [hz]
    show some (divLoop (-scale).toNat value) = some (scaledValue value scale)
    rw [divLoop_eq, scaledValue, if_neg (by omega)]

/-- Witness for C1 at `scaled_integer<int16_t>(32767, 1).get<int32_t>()`. -/
theorem claim_C1_witness : get 16 32 32767 1 = some 327670 := by
  rw [claim_C1_get_exact 16 32 32767 1 (by decide) (by decide) (by decide)]
  decide

/-- C3: whenever the target width is strictly smaller than the source width
(`sizeof(U) < sizeof(T)`), `get<U>()` fails unconditionally, for every
mantissa and scale — the check is on type widths, never on the value. -/
theorem claim_C3_narrowing_always_fails (wT wU : Nat) (value scale : Int)
    (hw : wU < wT) : get wT wU value scale = none := by
  rw [get, if_pos hw]

/-- Witness for C3: `scaled_integer<int16_t>(0, 0).get<char-width type>()`
fails even though the value 0 would fit. -/
theorem claim_C3_witness : get 16 8 0 0 = none :=
  claim_C3_narrowing_always_fails 16 8 0 0 (by decide)

/-- C4: for a target at least as wide as the source, `get<U>()` with a
positive scale fails exactly when some iteration of the multiply loop sees
an accumulator above `max(U)/10` or below `min(U)/10` (C++ truncated
division) before multiplying; a successful positive-scale run returns the
exact product (nothing clamped or rounded); and with nonpositive scale the
division-only computation never fails and truncates toward zero. -/
theorem claim_C4_overflow_characterisation (wT wU : Nat) (value scale : Int)
    (hw : wT ≤ wU) :
    (0 < scale →
      (get wT wU value scale = none ↔
        ∃ x, x < scale.toNat ∧
          ((smax wU).tdiv 10 < value * 10 ^ x ∨ value * 10 ^ x < (smin wU).tdiv 10))) ∧
    (0 < scale → ∀ r, get wT wU value scale = some r → r = value * 10 ^ scale.toNat) ∧
    (scale ≤ 0 → get wT wU value scale = some (value.tdiv (10 ^ (-scale).toNat))) := by
  refine ⟨?_, ?_, ?_⟩
  · intro hs
    rw [get, if_neg (by omega)]
    rw [← mulLoop_none_iff ((smax wU).tdiv 10) ((smin wU).tdiv 10) scale.toNat value]
    cases h : mulLoop ((smax wU).tdiv 10) ((smin wU).tdiv 10) scale.toNat value with
    | none => simp
    | some v => simp
  · intro hs r hr
    rw [get, if_neg (by omega)] at hr
    cases h : mulLoop ((smax wU).tdiv 10) ((smin wU).tdiv 10) scale.toNat value with
    | none => rw [h] at hr; cases hr
    | some v =>
      rw [h] at hr
      have hneg : (-scale).toNat = 0 := Int.toNat_of_nonpos (by omega)
      rw [hneg] at hr
      have hv : v = value * 10 ^ scale.toNat :=
        mulLoop_some ((smax wU).tdiv 10) ((smin wU).tdiv 10) scale.toNat value v h
      cases hr
      exact hv
  · intro hs
    rw [get, if_neg (by omega)]
    have hz : scale.toNat = 0 := Int.toNat_of_nonpos (by omega)
    rw [hz]
    show some (divLoop (-scale).toNat value) = some (value.tdiv (10 ^ (-scale).toNat))
    rw [divLoop_eq]

/-- Witness for C4: `scaled_integer<int16_t>(32767, 1).get<int16_t>()`
fails (the accumulator 32767 exceeds `32767 / 10 = 3276` before the
multiplication), and `scaled_integer<int16_t>(42, -1).get<int16_t>()`
succeeds with the truncated value 4. -/
theorem claim_C4_witness :
    get 16 16 32767 1 = none ∧ get 16 16 42 (-1) = some 4 := by
  constructor
  · exact ((claim_C4_overflow_characterisation 16 16 32767 1 (by decide)).1
      (by decide)).mpr ⟨0, by decide⟩
  · have h := (claim_C4_overflow_characterisation 16 16 42 (-1) (by decide)).2.2
      (by decide)
    rw [h]
    decide

/-! ## scaled_integer<T>::to_string  (include/types.hpp lines 170-220) -/

/-- The character the loops of `to_string` write for one digit:
`(val % 10) + '0'` with the truncated remainder of C++ `%`. For negative
`val` the remainder is negative and the character (codes 39..47) is not a
digit. -/
def digChar (v : Int) : Char := Char.ofNat (48 + v.tmod 10).toNat

/-- Model of `T val = std::abs(_value)` (types.hpp line 189): the absolute
value, converted back to the `w`-bit type `T` with two's-complement
wraparound. For `_value = min(T)` with `T = int16_t` this yields `min(T)`
again (the `int`-promoted `abs` is exact, the conversion back wraps); for
the wider types the C++ `std::abs` call itself overflows there (undefined
behaviour) and the model documents the modular outcome. For every other
mantissa it is exactly `|_value|`. -/
def wrapAbs (w : Nat) (v : Int) : Int := wrap w |v|

/-- Consecutive buffer writes: the characters of `xs` placed at positions
`p, p + 1, ...` of `buf`. -/
def setSeg : List Char → Nat → List Char → List Char
  | buf, _, [] => buf
  | buf, p, c :: rest => setSeg (buf.set p c) (p + 1) rest

/-- The first loop of the negative-scale branch (types.hpp 193-194):
`for (auto x = _scale; x < 0; ++x, val /= 10) *check_range(--it) = (val % 10) + '0';`
run for `k` iterations with write cursor `it` (an offset into `buf`); a
`check_range` throw is `none`, and the buffer as already modified is
returned either way. -/
def peelLoop : Nat → List Char → Nat → Int → List Char × Option (Nat × Int)
  | 0, buf, it, val => (buf, some (it, val))
  | k + 1, buf, it, val =>
    match it with
    | 0 => (buf, none)
    | i + 1 => peelLoop k (buf.set i (digChar val)) i (val.tdiv 10)

/-- The second loop of the negative-scale branch (types.hpp 198-199):
`for (; val; val /= 10) *check_range(--it) = (val % 10) + '0';`. -/
def restLoop : List Char → Nat → Int → List Char × Option Nat
  | buf, 0, val => if val = 0 then (buf, some 0) else (buf, none)
  | buf, i + 1, val =>
    if val = 0 then (buf, some (i + 1))
    else restLoop (buf.set i (digChar val)) i (val.tdiv 10)

/-- Decimal digit characters of a natural number, least significant first,
with an explicit structural recursion depth (always called with enough
depth); empty for 0. -/
def natDecRevN : Nat → Nat → List Char
  | 0, _ => []
  | fuel + 1, n => if n = 0 then [] else Char.ofNat (48 + n % 10) :: natDecRevN fuel (n / 10)

/-- Decimal digit characters of a natural number, least significant first;
empty for 0. -/
def natDecRev (n : Nat) : List Char := natDecRevN (n + 1) n

/-- Decimal text of a natural number. -/
def natDec (n : Nat) : List Char := if n = 0 then ['0'] else (natDecRev n).reverse

/-- Decimal text of an integer as `std::to_chars` (and `printf "%li"`)
renders it: an optional minus sign followed by the digits of the
magnitude. -/
def intDec (v : Int) : List Char :=
  if v < 0 then '-' :: natDec v.natAbs else natDec v.natAbs

/-- The low `k` decimal digits of a natural number, least significant
first: exactly `k` characters, zero-padded at the most significant end. -/
def natLowRev : Nat → Nat → List Char
  | _, 0 => []
  | n, k + 1 => Char.ofNat (48 + n % 10) :: natLowRev (n / 10) k

/-- Left-padding with zero characters to width `k`, as `printf "%0*li"`
pads a nonnegative value. -/
def padZeros (k : Nat) (ds : List Char) : List Char :=
  List.replicate (k - ds.length) '0' ++ ds

/-- Model of `std::to_chars(buf, buf + endOff, v)` on an integer: writes
the decimal text at the start of the buffer when it fits in `endOff`
characters, otherwise reports `std::errc::value_too_large` (modelled as
`none`) without writing. `endOff` is an `Int` because types.hpp line 210
computes `end -= _scale` before the call and the result can lie below
`buf`. -/
def toCharsWrite (buf : List Char) (endOff : Int) (v : Int) :
    List Char × Option Nat :=
  let ds := intDec v
  if (ds.length : Int) ≤ endOff then (setSeg buf 0 ds, some ds.length)
  else (buf, none)

/-- Model of `scaled_integer<T>::to_string(char* buf, size_t size)`
(types.hpp lines 170-220) at mantissa bit width `w`. The result pairs the
final buffer contents with `some (start, len)` describing the returned
`string_view`, or `none` when the C++ throws; the buffer component keeps
every byte written before a throw. -/
def to_string_buf (w : Nat) (value scale : Int) (buf : List Char) :
    List Char × Option (Nat × Nat) :=
  let size := buf.length
  if value = 0 then
    if size = 0 then (buf, none) else (buf.set 0 '0', some (0, 1))
  else if scale < 0 then
    match peelLoop (-scale).toNat buf size (wrapAbs w value) with
    | (buf1, none) => (buf1, none)
    | (buf1, some (it1, val1)) =>
      match it1 with
      | 0 => (buf1, none)
      | i + 1 =>
        match restLoop (buf1.set i '.') i val1 with
        | (buf3, none) => (buf3, none)
        | (buf3, some it3) =>
          if buf3.getD it3 ' ' = '.' then
            match it3 with
            | 0 => (buf3, none)
            | j + 1 =>
              if value < 0 then
                match j with
                | 0 => (buf3.set j '0', none)
                | l + 1 => ((buf3.set (l + 1) '0').set l '-', some (l, size - l))
              else (buf3.set j '0', some (j, size - j))
          else
            if value < 0 then
              match it3 with
              | 0 => (buf3, none)
              | l + 1 => (buf3.set l '-', some (l, size - l))
            else (buf3, some (it3, size - it3))
  else
    match toCharsWrite buf ((size : Int) - scale) value with
    | (b, none) => (b, none)
    | (b, some len) =>
      (setSeg b len (List.replicate scale.toNat '0'), some (0, len + scale.toNat))

/-- The string_view a successful `to_string` call returns: `len` characters
of the final buffer starting at offset `start`. -/
def viewOf (r : List Char × Option (Nat × Nat)) : Option (List Char) :=
  r.2.map fun p => (r.1.drop p.1).take p.2

/-- Model of the owning `std::string to_string()` overload (types.hpp
lines 150-154): a fixed 64-character automatic buffer handed to the
buffer-writing overload; a throw there propagates to the caller (`none`). -/
def to_string_owned (w : Nat) (value scale : Int) : Option (List Char) :=
  viewOf (to_string_buf w value scale (List.replicate 64 ' '))

/-- Characters the peel loop writes for starting value `val` over `k`
iterations, in buffer (left-to-right) order. -/
def peelChars : Int → Nat → List Char
  | _, 0 => []
  | val, k + 1 => peelChars (val.tdiv 10) k ++ [digChar val]

/-- Characters the rest loop writes for starting value `val`, in buffer
(left-to-right) order, with an explicit structural recursion depth (always
called with enough depth); empty when `val = 0`. -/
def restCharsN : Nat → Int → List Char
  | 0, _ => []
  | fuel + 1, val =>
    if val = 0 then [] else restCharsN fuel (val.tdiv 10) ++ [digChar val]

/-- Characters the rest loop writes for starting value `val`, in buffer
(left-to-right) order; empty when `val = 0`. -/
def restChars (val : Int) : List Char := restCharsN (val.natAbs + 1) val

/-- The decimal text the specification describes for `(mantissa, scale)`:
"0" for mantissa 0 at every scale; for negative scale the `|scale|`
trailing digits of `|mantissa|` after a decimal point, a leading "0" when
the integer part is empty, and a "-" for negative mantissa; for positive
scale the mantissa digits followed by exactly `scale` zeros; for scale 0
the mantissa rendered directly. -/
def specRender (m s : Int) : List Char :=
  if m = 0 then ['0']
  else if s < 0 then
    (if m < 0 then ['-'] else []) ++
      natDec (m.natAbs / 10 ^ (-s).toNat) ++
        '.' :: (natLowRev m.natAbs (-s).toNat).reverse
  else intDec m ++ List.replicate s.toNat '0'

/-- The characters the two digit loops and the dot write for the
negative-scale branch, in buffer order: rest-loop digits, the dot, then
the peeled digits. -/
def negBody (w : Nat) (m s : Int) : List Char :=
  restChars ((wrapAbs w m).tdiv (10 ^ (-s).toNat)) ++
    '.' :: peelChars (wrapAbs w m) (-s).toNat

/-- `negBody` with the leading "0" the code prepends when the read-back
test `*it == '.'` fires. -/
def negBody2 (w : Nat) (m s : Int) : List Char :=
  if (negBody w m s).headD ' ' = '.' then '0' :: negBody w m s else negBody w m s

/-- The character sequence `to_string(char*, size_t)` writes when the
buffer is large enough (established below); assembled from the loops'
written characters, including the read-back test `*it == '.'` that decides
the leading "0". -/
def implRender (w : Nat) (m s : Int) : List Char :=
  if m = 0 then ['0']
  else if s < 0 then
    if m < 0 then '-' :: negBody2 w m s else negBody2 w m s
  else intDec m ++ List.replicate s.toNat '0'

/-- Model of the single-header `scaled_integer<T>::to_string`
(single/firebird.hpp lines 698-729), successful output: `int64_t val = _value`;
zero prints "0"; for negative scale,
`auto div = std::div(std::abs(val), std::pow(10, -_scale))` followed by
`snprintf("%s%li.%0*li", sign, div.quot, -_scale, div.rem)` — sign,
quotient digits, a dot, the remainder zero-padded to `|scale|` digits; for
positive scale `snprintf("%li%0*hi", val, _scale, 0)` — the value followed
by 0 padded to `scale` characters, i.e. `scale` zeros; for scale 0 just
the value. The integer value of `std::pow(10, -_scale)` is exact only for
`-_scale ≤ 18` (beyond that the conversion to a 64-bit integer overflows),
and `std::abs` on `INT64_MIN` is undefined: theorems about this model
restrict to that domain. -/
def singleRender (m s : Int) : List Char :=
  if m = 0 then ['0']
  else if s < 0 then
    (if m < 0 then ['-'] else []) ++
      intDec ((m.natAbs : Int).tdiv (10 ^ (-s).toNat)) ++
        '.' :: padZeros (-s).toNat (natDec (m.natAbs % 10 ^ (-s).toNat))
  else intDec m ++ List.replicate s.toNat '0'

/-! ### Buffer-write algebra -/

/-- Casting helper: truncated division of a cast natural by 10. -/
theorem tdiv_cast_ten (n : Nat) : ((n : Int)).tdiv 10 = ((n / 10 : Nat) : Int) := by
  rw [show ((10 : Int)) = (((10 : Nat) : Int)) from rfl, ← Int.ofNat_tdiv]

/-- Casting helper: truncated remainder of a cast natural by 10. -/
theorem tmod_cast_ten (n : Nat) : ((n : Int)).tmod 10 = ((n % 10 : Nat) : Int) := by
  rw [show ((10 : Int)) = (((10 : Nat) : Int)) from rfl, ← Int.ofNat_tmod]

/-- Writing a segment does not change the buffer length. -/
theorem setSeg_length (xs : List Char) (buf : List Char) (p : Nat) :
    (setSeg buf p xs).length = buf.length := by
  induction xs generalizing buf p with
  | nil => rfl
  | cons c rest ih => rw [setSeg, ih, List.length_set]

/-- A written segment replaces the corresponding slice of the buffer. -/
theorem setSeg_eq (xs : List Char) (buf : List Char) (p : Nat)
    (h : p + xs.length ≤ buf.length) :
    setSeg buf p xs = buf.take p ++ xs ++ buf.drop (p + xs.length) := by
  induction xs generalizing buf p with
  | nil => simp [setSeg]
  | cons c rest ih =>
    have hp : p < buf.length := by simp at h ⊢; omega
    rw [setSeg, ih (buf.set p c) (p + 1) (by simp at h ⊢; omega)]
    rw [List.set_take]
    have h1 : (buf.take (p + 1)).set p c = buf.take p ++ [c] := by
      rw [List.take_succ, List.getElem?_eq_getElem hp]
      rw [List.set_append_right p c (by simp)]
      rw [List.length_take]
      rw [Nat.min_eq_left (by omega)]
      simp
    rw [h1]
    rw [List.drop_set]
    rw [if_pos (by omega)]
    have h2 : p + 1 + rest.length = p + (rest.length + 1) := by omega
    simp [h2]

/-- A single write below a written segment commutes into the base buffer. -/
theorem set_setSeg_comm (xs : List Char) (buf : List Char) (p q : Nat) (c : Char)
    (h : q < p) : (setSeg buf p xs).set q c = setSeg (buf.set q c) p xs := by
  induction xs generalizing buf p with
  | nil => rfl
  | cons x rest ih =>
    rw [setSeg, ih (buf.set p x) (p + 1) (by omega), List.set_comm x c buf (by omega),
      setSeg]

/-- Two adjacent segment writes (right segment first) merge into one. -/
theorem setSeg_setSeg (xs1 xs2 : List Char) (buf : List Char) (p1 p2 : Nat)
    (h : p1 + xs1.length = p2) :
    setSeg (setSeg buf p2 xs2) p1 xs1 = setSeg buf p1 (xs1 ++ xs2) := by
  induction xs1 generalizing buf p1 with
  | nil => simp at h; subst h; rfl
  | cons c rest ih =>
    rw [setSeg, set_setSeg_comm xs2 buf p2 p1 c (by simp at h; omega),
      ih (buf.set p1 c) (p1 + 1) (by simp at h; omega)]
    rfl

/-- Reading strictly below a written segment sees the base buffer. -/
theorem setSeg_getD_below (xs : List Char) (buf : List Char) (p q : Nat) (d : Char)
    (h : q < p) : (setSeg buf p xs).getD q d = buf.getD q d := by
  induction xs generalizing buf p with
  | nil => rfl
  | cons c rest ih =>
    rw [setSeg, ih (buf.set p c) (p + 1) (by omega)]
    simp [List.getD, List.getElem?_set_ne (by omega : p ≠ q)]

/-- Reading at the start of a written nonempty segment sees its first
character. -/
theorem setSeg_getD_head (x : Char) (rest : List Char) (buf : List Char) (p : Nat)
    (d : Char) (hp : p < buf.length) :
    (setSeg buf p (x :: rest)).getD p d = x := by
  rw [setSeg, setSeg_getD_below rest (buf.set p x) (p + 1) p d (by omega)]
  simp [List.getD, List.getElem?_set_self, hp]

/-- Extracting a written segment returns exactly the written characters. -/
theorem setSeg_extract (xs : List Char) (buf : List Char) (p : Nat)
    (h : p + xs.length ≤ buf.length) :
    ((setSeg buf p xs).drop p).take xs.length = xs := by
  rw [setSeg_eq xs buf p h, List.append_assoc,
    List.drop_left' (by rw [List.length_take]; omega), List.take_left]

/-! ### Loop characterisations -/

/-- The peel loop writes one character per iteration. -/
theorem peelChars_length (k : Nat) (val : Int) : (peelChars val k).length = k := by
  induction k generalizing val with
  | zero => rfl
  | succ k ih => simp [peelChars, ih]

/-- Depth-invariance of `restCharsN`: any sufficient depth gives the same
characters. -/
theorem restCharsN_congr (f1 : Nat) : ∀ (f2 : Nat) (val : Int),
    val.natAbs < f1 → val.natAbs < f2 → restCharsN f1 val = restCharsN f2 val := by
  induction f1 with
  | zero => intro f2 val h1 _; omega
  | succ f1 ih =>
    intro f2 val h1 h2
    match f2 with
    | 0 => omega
    | f2 + 1 =>
      rw [restCharsN, restCharsN]
      by_cases hv : val = 0
      · rw [if_pos hv, if_pos hv]
      · rw [if_neg hv, if_neg hv]
        have hd : (val.tdiv 10).natAbs < val.natAbs := by
          rw [Int.natAbs_tdiv]
          exact Nat.div_lt_self (Nat.pos_of_ne_zero (Int.natAbs_ne_zero.mpr hv))
            (by norm_num)
        rw [ih f2 (val.tdiv 10) (by omega) (by omega)]

/-- Unfolding equation of `restChars` at a nonzero value. -/
theorem restChars_eq (val : Int) (h : val ≠ 0) :
    restChars val = restChars (val.tdiv 10) ++ [digChar val] := by
  rw [restChars, restChars, restCharsN, if_neg h]
  have hd : (val.tdiv 10).natAbs < val.natAbs := by
    rw [Int.natAbs_tdiv]
    exact Nat.div_lt_self (Nat.pos_of_ne_zero (Int.natAbs_ne_zero.mpr h)) (by norm_num)
  rw [restCharsN_congr val.natAbs ((val.tdiv 10).natAbs + 1) (val.tdiv 10)
    (by omega) (by omega)]

/-- The rest loop writes nothing for value zero. -/
theorem restChars_zero : restChars 0 = [] := by
  rw [restChars, restCharsN]
  simp

/-- Truncated division by ten, then by `10 ^ k`, is division by `10 ^ (k + 1)`. -/
theorem tdiv_ten_pow (val : Int) (k : Nat) :
    (val.tdiv 10).tdiv (10 ^ k) = val.tdiv (10 ^ (k + 1)) := by
  rw [← divLoop_eq, ← divLoop_eq]
  rfl

/-- With at least `k` slots left of the cursor, the peel loop writes its
`k` characters right-to-left just below the cursor and hands back the
cursor and the value divided by `10 ^ k`. -/
theorem peelLoop_spec (k : Nat) (buf : List Char) (it : Nat) (val : Int)
    (hk : k ≤ it) (hit : it ≤ buf.length) :
    peelLoop k buf it val =
      (setSeg buf (it - k) (peelChars val k), some (it - k, val.tdiv (10 ^ k))) := by
  induction k generalizing buf it val with
  | zero =>
    simp [peelLoop, peelChars, setSeg, Int.tdiv_one]
  | succ k ih =>
    match it, hk with
    | i + 1, hk =>
      rw [peelLoop]
      rw [ih (buf.set i (digChar val)) i (val.tdiv 10) (by omega)
        (by rw [List.length_set]; omega)]
      have hseg : setSeg (buf.set i (digChar val)) (i - k) (peelChars (val.tdiv 10) k)
          = setSeg buf (i + 1 - (k + 1)) (peelChars val (k + 1)) := by
      
        have hstep : buf.set i (digChar val) = setSeg buf i [digChar val] := rfl
        rw [hstep, setSeg_setSeg (peelChars (val.tdiv 10) k) [digChar val] buf (i - k) i
          (by rw [peelChars_length]; omega)]
        have hidx : i + 1 - (k + 1) = i - k := by omega
        rw [hidx]
        rfl
      rw [hseg, tdiv_ten_pow]
      have hidx : i + 1 - (k + 1) = i - k := by omega
      rw [hidx]

/-- With fewer than `k` slots left of the cursor, the peel loop throws. -/
theorem peelLoop_fail (k : Nat) (buf : List Char) (it : Nat) (val : Int)
    (h : it < k) : (peelLoop k buf it val).2 = none := by
  induction k generalizing buf it val with
  | zero => omega
  | succ k ih =>
    match it with
    | 0 => simp [peelLoop]
    | i + 1 => exact ih (buf.set i (digChar val)) i (val.tdiv 10) (by omega)

/-- With room for all its characters left of the cursor, the rest loop
writes them right-to-left just below the cursor. -/
theorem restLoop_spec (it : Nat) (buf : List Char) (val : Int)
    (hk : (restChars val).length ≤ it) (hit : it ≤ buf.length) :
    restLoop buf it val =
      (setSeg buf (it - (restChars val).length) (restChars val),
        some (it - (restChars val).length)) := by
  induction it generalizing buf val with
  | zero =>
    by_cases h : val = 0
    · subst h
      simp [restLoop, restChars_zero, setSeg]
    · rw [restChars_eq val h] at hk
      simp at hk
  | succ i ih =>
    by_cases h : val = 0
    · subst h
      simp [restLoop, restChars_zero, setSeg]
    · rw [restLoop, if_neg h]
      rw [restChars_eq val h] at hk ⊢
      simp only [List.length_append, List.length_cons, List.length_nil] at hk ⊢
      rw [ih (buf.set i (digChar val)) (val.tdiv 10) (by omega)
        (by rw [List.length_set]; omega)]
      have hstep : buf.set i (digChar val) = setSeg buf i [digChar val] := rfl
      rw [hstep, setSeg_setSeg (restChars (val.tdiv 10)) [digChar val] buf
        (i - (restChars (val.tdiv 10)).length) i (by omega)]
      have hidx : i + 1 - ((restChars (val.tdiv 10)).length + 0 + 1)
          = i - (restChars (val.tdiv 10)).length := by omega
      rw [hidx]

/-- With less room than it needs, the rest loop throws. -/
theorem restLoop_fail (it : Nat) (buf : List Char) (val : Int)
    (h : it < (restChars val).length) : (restLoop buf it val).2 = none := by
  induction it generalizing buf val with
  | zero =>
    have hv : val ≠ 0 := by
      intro hv; subst hv; rw [restChars_zero] at h; simp at h
    simp [restLoop, if_neg hv]
  | succ i ih =>
    have hv : val ≠ 0 := by
      intro hv; subst hv; rw [restChars_zero] at h; simp at h
    rw [restLoop, if_neg hv]
    refine ih (buf.set i (digChar val)) (val.tdiv 10) ?_
    rw [restChars_eq val hv] at h
    simp at h
    omega

theorem negBody_ex (w : Nat) (m s : Int) :
    ∃ x rest, negBody w m s = x :: rest := by
  rw [negBody]
  cases h : restChars ((wrapAbs w m).tdiv (10 ^ (-s).toNat)) with
  | nil => exact ⟨'.', _, rfl⟩
  | cons c t => exact ⟨c, _, rfl⟩

theorem negBody_length (w : Nat) (m s : Int) :
    (negBody w m s).length =
      (restChars ((wrapAbs w m).tdiv (10 ^ (-s).toNat))).length + 1 + (-s).toNat := by
  simp [negBody, peelChars_length]
  omega

theorem to_string_buf_neg (w : Nat) (m s : Int) (buf : List Char)
    (hm : m ≠ 0) (hs : s < 0)
    (hn : (implRender w m s).length ≤ buf.length) :
    to_string_buf w m s buf =
      (setSeg buf (buf.length - (implRender w m s).length) (implRender w m s),
        some (buf.length - (implRender w m s).length, (implRender w m s).length)) := by
  obtain ⟨x, rest, hx⟩ := negBody_ex w m s
  have hhead : (negBody w m s).headD ' ' = x := by rw [hx]; rfl
  have hout : implRender w m s = if m < 0 then '-' :: negBody2 w m s else negBody2 w m s := by
    rw [implRender, if_neg hm, if_pos hs]
  have hlen2 : (negBody2 w m s).length =
      if x = '.' then (negBody w m s).length + 1 else (negBody w m s).length := by
    rw [negBody2, hhead]
    by_cases hd : x = '.'
    · rw [if_pos hd, if_pos hd, List.length_cons]
    · rw [if_neg hd, if_neg hd]
  have hblen := negBody_length w m s
  have hrcx : restChars ((wrapAbs w m).tdiv (10 ^ (-s).toNat)) = [] → x = '.' := by
    intro h
    rw [negBody, h] at hx
    exact (List.cons.injEq _ _ _ _ ▸ hx).1.symm
  have hge1 : (negBody w m s).length ≤ (negBody2 w m s).length := by
    rw [hlen2]; split <;> omega
  have hge2 : (negBody2 w m s).length ≤ (implRender w m s).length := by
    rw [hout]; split <;> simp
  have hL1 : x = '.' ∨
      1 ≤ (restChars ((wrapAbs w m).tdiv (10 ^ (-s).toNat))).length := by
    cases hrc : restChars ((wrapAbs w m).tdiv (10 ^ (-s).toNat)) with
    | nil => exact Or.inl (hrcx hrc)
    | cons c t => right; simp [hrc]
  have hk2 : (-s).toNat + 2 ≤ (implRender w m s).length := by
    rcases hL1 with hd | hL
    · have : (negBody2 w m s).length = (negBody w m s).length + 1 := by
        rw [hlen2, if_pos hd]
      omega
    · omega
  have hrest : rest.length =
      (restChars ((wrapAbs w m).tdiv (10 ^ (-s).toNat))).length + (-s).toNat := by
    have : (negBody w m s).length = rest.length + 1 := by rw [hx]; simp
    omega
  set K := (-s).toNat with hK
  have hk1 : 1 ≤ K := by omega
  set A := wrapAbs w m with hA
  set Q := A.tdiv (10 ^ K) with hQ
  set RC := restChars Q with hRC
  set N := (implRender w m s).length with hN
  simp only [to_string_buf]
  rw [if_neg hm, if_pos hs]
  rw [peelLoop_spec K buf buf.length A (by omega) (le_refl _)]
  simp only []
  set i := buf.length - K - 1 with hi
  have hit1 : buf.length - K = i + 1 := by omega
  rw [hit1]
  simp only []
  have hdotset : (setSeg buf (i + 1) (peelChars A K)).set i '.' =
      setSeg buf i ('.' :: peelChars A K) := by
    show setSeg (setSeg buf (i + 1) (peelChars A K)) i ['.'] = _
    rw [setSeg_setSeg ['.'] (peelChars A K) buf i (i + 1) (by simp)]
    rfl
  rw [hdotset]
  have hLle : RC.length ≤ i := by omega
  rw [restLoop_spec i (setSeg buf i ('.' :: peelChars A K)) Q hLle
    (by rw [setSeg_length]; omega)]
  simp only []
  set it3 := i - RC.length with hit3
  rw [setSeg_setSeg RC ('.' :: peelChars A K) buf it3 i (by omega)]
  have hnb : RC ++ '.' :: peelChars A K = negBody w m s := by
    rw [negBody]
  rw [hnb, hx]
  rw [setSeg_getD_head x rest buf it3 ' ' (by omega)]
  by_cases hd : x = '.'
  · rw [if_pos hd]
    by_cases hneg : m < 0
    · have himpl : implRender w m s = '-' :: '0' :: x :: rest := by
        rw [hout, if_pos hneg, negBody2, hhead, if_pos hd, hx]
      have hNv : N = rest.length + 3 := by rw [hN, himpl]; simp
      have hit3pos : 2 ≤ it3 := by omega
      have hj : it3 = (it3 - 2) + 1 + 1 := by omega
      rw [hj]
      simp only []
      rw [if_pos hneg]
      have hstep1 : (setSeg buf ((it3 - 2) + 1 + 1) (x :: rest)).set ((it3 - 2) + 1) '0' =
          setSeg buf ((it3 - 2) + 1) ('0' :: x :: rest) := by
        show setSeg (setSeg buf ((it3 - 2) + 1 + 1) (x :: rest)) ((it3 - 2) + 1) ['0'] = _
        rw [setSeg_setSeg ['0'] (x :: rest) buf ((it3 - 2) + 1) ((it3 - 2) + 1 + 1) (by simp)]
        rfl
      rw [hstep1]
      have hstep2 : (setSeg buf ((it3 - 2) + 1) ('0' :: x :: rest)).set (it3 - 2) '-' =
          setSeg buf (it3 - 2) ('-' :: '0' :: x :: rest) := by
        show setSeg (setSeg buf ((it3 - 2) + 1) ('0' :: x :: rest)) (it3 - 2) ['-'] = _
        rw [setSeg_setSeg ['-'] ('0' :: x :: rest) buf (it3 - 2) ((it3 - 2) + 1) (by simp)]
        rfl
      rw [hstep2, himpl]
      have hln : buf.length - N = it3 - 2 := by omega
      rw [hln]
      have h2 : buf.length - (it3 - 2) = N := by omega
      rw [h2]
    · have himpl : implRender w m s = '0' :: x :: rest := by
        rw [hout, if_neg hneg, negBody2, hhead, if_pos hd, hx]
      have hNv : N = rest.length + 2 := by rw [hN, himpl]; simp
      have hit3pos : 1 ≤ it3 := by omega
      have hj : it3 = (it3 - 1) + 1 := by omega
      rw [hj]
      simp only []
      rw [if_neg hneg]
      have hstep1 : (setSeg buf ((it3 - 1) + 1) (x :: rest)).set (it3 - 1) '0' =
          setSeg buf (it3 - 1) ('0' :: x :: rest) := by
        show setSeg (setSeg buf ((it3 - 1) + 1) (x :: rest)) (it3 - 1) ['0'] = _
        rw [setSeg_setSeg ['0'] (x :: rest) buf (it3 - 1) ((it3 - 1) + 1) (by simp)]
        rfl
      rw [hstep1, himpl]
      have hln : buf.length - N = it3 - 1 := by omega
      rw [hln]
      have h2 : buf.length - (it3 - 1) = N := by omega
      rw [h2]
  · rw [if_neg hd]
    by_cases hneg : m < 0
    · have himpl : implRender w m s = '-' :: x :: rest := by
        rw [hout, if_pos hneg, negBody2, hhead, if_neg hd, hx]
      have hNv : N = rest.length + 2 := by rw [hN, himpl]; simp
      have hit3pos : 1 ≤ it3 := by omega
      have hj : it3 = (it3 - 1) + 1 := by omega
      rw [if_pos hneg, hj]
      simp only []
      have hstep1 : (setSeg buf ((it3 - 1) + 1) (x :: rest)).set (it3 - 1) '-' =
          setSeg buf (it3 - 1) ('-' :: x :: rest) := by
        show setSeg (setSeg buf ((it3 - 1) + 1) (x :: rest)) (it3 - 1) ['-'] = _
        rw [setSeg_setSeg ['-'] (x :: rest) buf (it3 - 1) ((it3 - 1) + 1) (by simp)]
        rfl
      rw [hstep1, himpl]
      have hln : buf.length - N = it3 - 1 := by omega
      rw [hln]
      have h2 : buf.length - (it3 - 1) = N := by omega
      rw [h2]
    · have himpl : implRender w m s = x :: rest := by
        rw [hout, if_neg hneg, negBody2, hhead, if_neg hd, hx]
      have hNv : N = rest.length + 1 := by rw [hN, himpl]; simp
      rw [if_neg hneg, himpl]
      have hln : buf.length - N = it3 := by omega
      rw [hln]
      have h2 : buf.length - it3 = N := by omega
      rw [h2]

theorem to_string_buf_neg_fail (w : Nat) (m s : Int) (buf : List Char)
    (hm : m ≠ 0) (hs : s < 0)
    (hn : buf.length < (implRender w m s).length) :
    (to_string_buf w m s buf).2 = none := by
  obtain ⟨x, rest, hx⟩ := negBody_ex w m s
  have hhead : (negBody w m s).headD ' ' = x := by rw [hx]; rfl
  have hout : implRender w m s = if m < 0 then '-' :: negBody2 w m s else negBody2 w m s := by
    rw [implRender, if_neg hm, if_pos hs]
  have hblen := negBody_length w m s
  have hrest : rest.length =
      (restChars ((wrapAbs w m).tdiv (10 ^ (-s).toNat))).length + (-s).toNat := by
    have : (negBody w m s).length = rest.length + 1 := by rw [hx]; simp
    omega
  set K := (-s).toNat with hK
  have hk1 : 1 ≤ K := by omega
  set A := wrapAbs w m with hA
  set Q := A.tdiv (10 ^ K) with hQ
  set RC := restChars Q with hRC
  set N := (implRender w m s).length with hN
  simp only [to_string_buf]
  rw [if_neg hm, if_pos hs]
  by_cases hKb : buf.length < K
  · rcases hp : peelLoop K buf buf.length A with ⟨b1, o⟩
    have ho : o = none := by
      have := peelLoop_fail K buf buf.length A hKb
      rw [hp] at this
      exact this
    rw [ho]
  · rw [peelLoop_spec K buf buf.length A (by omega) (le_refl _)]
    simp only []
    by_cases hK2 : buf.length - K = 0
    · rw [hK2]
    · have hit1 : buf.length - K = (buf.length - K - 1) + 1 := by omega
      rw [hit1]
      simp only []
      set i := buf.length - K - 1 with hi
      have hdotset : (setSeg buf (i + 1) (peelChars A K)).set i '.' =
          setSeg buf i ('.' :: peelChars A K) := by
        show setSeg (setSeg buf (i + 1) (peelChars A K)) i ['.'] = _
        rw [setSeg_setSeg ['.'] (peelChars A K) buf i (i + 1) (by simp)]
        rfl
      rw [hdotset]
      by_cases hK3 : i < RC.length
      · rcases hr : restLoop (setSeg buf i ('.' :: peelChars A K)) i Q with ⟨b3, o⟩
        have ho : o = none := by
          have := restLoop_fail i (setSeg buf i ('.' :: peelChars A K)) Q hK3
          rw [hr] at this
          exact this
        rw [ho]
      · rw [restLoop_spec i (setSeg buf i ('.' :: peelChars A K)) Q
          (Nat.le_of_not_lt hK3) (by rw [setSeg_length]; omega)]
        simp only []
        set it3 := i - RC.length with hit3
        rw [setSeg_setSeg RC ('.' :: peelChars A K) buf it3 i (by omega)]
        have hnb : RC ++ '.' :: peelChars A K = negBody w m s := by
          rw [negBody]
        rw [hnb, hx]
        rw [setSeg_getD_head x rest buf it3 ' ' (by omega)]
        by_cases hd : x = '.'
        · rw [if_pos hd]
          cases hv3 : it3 with
          | zero => rfl
          | succ j =>
            simp only []
            by_cases hneg : m < 0
            · rw [if_pos hneg]
              cases hvj : j with
              | zero => rfl
              | succ l =>
                have himpl : implRender w m s = '-' :: '0' :: x :: rest := by
                  rw [hout, if_pos hneg, negBody2, hhead, if_pos hd, hx]
                have hNv : N = rest.length + 3 := by rw [hN, himpl]; simp
                omega
            · rw [if_neg hneg]
              have himpl : implRender w m s = '0' :: x :: rest := by
                rw [hout, if_neg hneg, negBody2, hhead, if_pos hd, hx]
              have hNv : N = rest.length + 2 := by rw [hN, himpl]; simp
              omega
        · rw [if_neg hd]
          by_cases hneg : m < 0
          · rw [if_pos hneg]
            cases hv3 : it3 with
            | zero => rfl
            | succ l =>
              simp only []
              have himpl : implRender w m s = '-' :: x :: rest := by
                rw [hout, if_pos hneg, negBody2, hhead, if_neg hd, hx]
              have hNv : N = rest.length + 2 := by rw [hN, himpl]; simp
              omega
          · rw [if_neg hneg]
            have himpl : implRender w m s = x :: rest := by
              rw [hout, if_neg hneg, negBody2, hhead, if_neg hd, hx]
            have hNv : N = rest.length + 1 := by rw [hN, himpl]; simp
            omega

theorem setSeg_append (xs1 xs2 : List Char) (buf : List Char) (p : Nat) :
    setSeg buf p (xs1 ++ xs2) = setSeg (setSeg buf p xs1) (p + xs1.length) xs2 := by
  induction xs1 generalizing buf p with
  | nil => simp [setSeg]
  | cons c rest ih =>
    rw [List.cons_append, setSeg, setSeg, ih]
    have h : p + 1 + rest.length = p + (rest.length + 1) := by omega
    rw [h]
    rfl

theorem to_string_buf_success (w : Nat) (m s : Int) (buf : List Char)
    (hn : (implRender w m s).length ≤ buf.length) :
    viewOf (to_string_buf w m s buf) = some (implRender w m s) := by
  by_cases hm : m = 0
  · subst hm
    have himpl : implRender w 0 s = ['0'] := by rw [implRender, if_pos rfl]
    rw [himpl] at hn ⊢
    simp only [List.length_cons, List.length_nil] at hn
    simp only [to_string_buf, if_pos rfl]
    rw [if_neg (by omega : ¬ buf.length = 0)]
    show some ((setSeg buf 0 ['0']).drop 0 |>.take 1) = some ['0']
    rw [show (1 : Nat) = (['0'] : List Char).length from rfl]
    rw [setSeg_extract ['0'] buf 0 (by simp; omega)]
  · by_cases hs : s < 0
    · rw [to_string_buf_neg w m s buf hm hs hn]
      simp only [viewOf, Option.map_some']
      rw [setSeg_extract (implRender w m s) buf
        (buf.length - (implRender w m s).length) (by omega)]
    · have himpl : implRender w m s = intDec m ++ List.replicate s.toNat '0' := by
        rw [implRender, if_neg hm, if_neg hs]
      have hlen : ((intDec m).length : Int) ≤ (buf.length : Int) - s := by
        rw [himpl] at hn
        simp only [List.length_append, List.length_replicate] at hn
        omega
      simp only [to_string_buf, if_neg hm, if_neg hs, toCharsWrite]
      rw [if_pos hlen]
      simp only []
      rw [show setSeg (setSeg buf 0 (intDec m)) (intDec m).length
          (List.replicate s.toNat '0')
          = setSeg buf 0 (intDec m ++ List.replicate s.toNat '0') from by
        rw [setSeg_append, Nat.zero_add]]
      rw [← himpl]
      simp only [viewOf, Option.map_some']
      have hNlen : (intDec m).length + s.toNat = (implRender w m s).length := by
        rw [himpl]; simp
      rw [hNlen]
      rw [setSeg_extract (implRender w m s) buf 0 (by omega)]

theorem to_string_buf_fail (w : Nat) (m s : Int) (buf : List Char)
    (hn : buf.length < (implRender w m s).length) :
    (to_string_buf w m s buf).2 = none := by
  by_cases hm : m = 0
  · subst hm
    have himpl : implRender w 0 s = ['0'] := by rw [implRender, if_pos rfl]
    rw [himpl] at hn
    simp only [List.length_cons, List.length_nil] at hn
    simp only [to_string_buf, if_pos rfl]
    rw [if_pos (by omega : buf.length = 0)]
    rfl
  · by_cases hs : s < 0
    · exact to_string_buf_neg_fail w m s buf hm hs hn
    · have himpl : implRender w m s = intDec m ++ List.replicate s.toNat '0' := by
        rw [implRender, if_neg hm, if_neg hs]
      have hlen : ¬ (((intDec m).length : Int) ≤ (buf.length : Int) - s) := by
        rw [himpl] at hn
        simp only [List.length_append, List.length_replicate] at hn
        omega
      simp only [to_string_buf, if_neg hm, if_neg hs, toCharsWrite]
      rw [if_neg hlen]

/-! ### Digit rendering lemmas -/

/-- Depth-invariance of `natDecRevN`. -/
theorem natDecRevN_congr (f1 : Nat) : ∀ (f2 n : Nat),
    n < f1 → n < f2 → natDecRevN f1 n = natDecRevN f2 n := by
  induction f1 with
  | zero => intro f2 n h1 _; omega
  | succ f1 ih =>
    intro f2 n h1 h2
    match f2 with
    | 0 => omega
    | f2 + 1 =>
      rw [natDecRevN, natDecRevN]
      by_cases hn : n = 0
      · rw [if_pos hn, if_pos hn]
      · rw [if_neg hn, if_neg hn]
        have hd : n / 10 < n := Nat.div_lt_self (Nat.pos_of_ne_zero hn) (by norm_num)
        rw [ih f2 (n / 10) (by omega) (by omega)]

/-- Unfolding equation of `natDecRev` at a nonzero number. -/
theorem natDecRev_eq (n : Nat) (h : n ≠ 0) :
    natDecRev n = Char.ofNat (48 + n % 10) :: natDecRev (n / 10) := by
  rw [natDecRev, natDecRev, natDecRevN, if_neg h]
  have hd : n / 10 < n := Nat.div_lt_self (Nat.pos_of_ne_zero h) (by norm_num)
  rw [natDecRevN_congr n (n / 10 + 1) (n / 10) (by omega) (by omega)]

/-- `natDecRev` of zero is empty. -/
theorem natDecRev_zero : natDecRev 0 = [] := by
  rw [natDecRev, natDecRevN]
  simp

/-- The digit character of a nonnegative value is the plain decimal digit. -/
theorem digChar_cast (n : Nat) : digChar ((n : Nat) : Int) = Char.ofNat (48 + n % 10) := by
  rw [digChar, tmod_cast_ten]
  have h : ((48 : Int) + ((n % 10 : Nat) : Int)).toNat = 48 + n % 10 := by omega
  rw [h]

/-- On a nonnegative starting value the peel loop writes exactly the low
`k` digits (zero padded). -/
theorem peelChars_cast (k : Nat) : ∀ n : Nat,
    peelChars ((n : Nat) : Int) k = (natLowRev n k).reverse := by
  induction k with
  | zero => intro n; rfl
  | succ k ih =>
    intro n
    rw [peelChars, tdiv_cast_ten, ih (n / 10), digChar_cast, natLowRev,
      List.reverse_cons]

/-- On a nonnegative starting value the rest loop writes exactly the
decimal digits, most significant first. -/
theorem restChars_cast (n : Nat) :
    restChars ((n : Nat) : Int) = if n = 0 then [] else (natDecRev n).reverse := by
  induction n using Nat.strong_induction_on with
  | _ n ih =>
    by_cases hn : n = 0
    · subst hn
      rw [if_pos rfl]
      exact restChars_zero
    · rw [if_neg hn]
      have hcast : ((n : Nat) : Int) ≠ 0 := by
        simpa using hn
      rw [restChars_eq ((n : Nat) : Int) hcast, tdiv_cast_ten, digChar_cast]
      have hd : n / 10 < n := Nat.div_lt_self (Nat.pos_of_ne_zero hn) (by norm_num)
      rw [ih (n / 10) hd]
      rw [natDecRev_eq n hn, List.reverse_cons]
      by_cases hq : n / 10 = 0
      · rw [if_pos hq, hq, natDecRev_zero]
        simp
      · rw [if_neg hq]

/-- Every character `natDecRev` produces is a decimal digit character. -/
theorem natDecRev_mem (n : Nat) : ∀ c ∈ natDecRev n, ∃ d, d < 10 ∧ c = Char.ofNat (48 + d) := by
  induction n using Nat.strong_induction_on with
  | _ n ih =>
    by_cases hn : n = 0
    · subst hn
      rw [natDecRev_zero]
      intro c hc
      cases hc
    · rw [natDecRev_eq n hn]
      intro c hc
      rcases List.mem_cons.mp hc with hc | hc
      · exact ⟨n % 10, Nat.mod_lt _ (by norm_num), hc⟩
      · exact ih (n / 10) (Nat.div_lt_self (Nat.pos_of_ne_zero hn) (by norm_num)) c hc

/-- Decimal digit characters are never the decimal point. -/
theorem digit_ne_dot (d : Nat) (hd : d < 10) : Char.ofNat (48 + d) ≠ '.' := by
  interval_cases d <;> decide

/-- The leading character of a nonzero decimal rendering is a digit, hence
not a dot. -/
theorem natDec_head_ne_dot (n : Nat) (hn : n ≠ 0) :
    ((natDecRev n).reverse).headD ' ' ≠ '.' := by
  have hne : natDecRev n ≠ [] := by
    rw [natDecRev_eq n hn]
    simp
  have hne2 : (natDecRev n).reverse ≠ [] := by
    simpa using hne
  obtain ⟨c, t, hct⟩ := List.exists_cons_of_ne_nil hne2
  rw [hct]
  have hc : c ∈ (natDecRev n).reverse := by rw [hct]; exact List.mem_cons_self c t
  rw [List.mem_reverse] at hc
  obtain ⟨d, hd, hcd⟩ := natDecRev_mem n c hc
  simpa [hcd] using digit_ne_dot d hd

/-- The low digits of `n` depend only on `n` modulo `10 ^ k`. -/
theorem natLowRev_mod (k : Nat) : ∀ n : Nat, natLowRev n k = natLowRev (n % 10 ^ k) k := by
  induction k with
  | zero => intro n; rfl
  | succ k ih =>
    intro n
    rw [natLowRev, natLowRev]
    have h1 : n % 10 ^ (k + 1) % 10 = n % 10 := by
      rw [Nat.mod_mod_of_dvd]
      exact Dvd.intro (10 ^ k) (by ring)
    have h2 : n % 10 ^ (k + 1) / 10 = n / 10 % 10 ^ k := by
      rw [pow_succ]
      rw [show (10 : Nat) ^ k * 10 = 10 * 10 ^ k from by ring]
      exact Nat.mod_mul_right_div_self n 10 (10 ^ k)
    rw [h1, h2, ih (n / 10), ← ih (n / 10)]

/-- Left-padding a single character to width `k`. -/
theorem padZeros_single (k : Nat) (c : Char) :
    padZeros k [c] = List.replicate (k - 1) '0' ++ [c] := by
  rw [padZeros]
  simp

/-- Folding one zero into the replicate padding. -/
theorem replicate_zero_snoc (k : Nat) (hk : 1 ≤ k) :
    List.replicate (k - 1) '0' ++ ['0'] = List.replicate k '0' := by
  rw [← List.replicate_succ']
  congr 1
  omega

/-- For a value below `10 ^ k` the reversed low digits are the decimal
text left-padded with zeros to `k` characters. -/
theorem natLowRev_pad (k : Nat) : 1 ≤ k → ∀ r : Nat, r < 10 ^ k →
    (natLowRev r k).reverse = padZeros k (natDec r) := by
  induction k with
  | zero => omega
  | succ k ih =>
    intro _ r hr
    by_cases hk0 : k = 0
    · subst hk0
      have hr10 : r < 10 := by simpa using hr
      rw [natLowRev, natLowRev]
      simp only [List.reverse_cons, List.reverse_nil, List.nil_append]
      by_cases hrz : r = 0
      · subst hrz
        rw [show natDec 0 = ['0'] from rfl, padZeros_single]
        rfl
      · rw [natDec, if_neg hrz, natDecRev_eq r hrz]
        rw [Nat.div_eq_of_lt hr10, natDecRev_zero, Nat.mod_eq_of_lt hr10]
        rw [padZeros]
        simp
    · have hk1 : 1 ≤ k := by omega
      rw [natLowRev, List.reverse_cons]
      rw [ih hk1 (r / 10) (by
        have h10 : 10 ^ (k + 1) = 10 ^ k * 10 := pow_succ 10 k
        omega)]
      by_cases hrz : r = 0
      · subst hrz
        rw [Nat.zero_div, Nat.zero_mod]
        rw [show natDec 0 = ['0'] from rfl]
        rw [show Char.ofNat (48 + 0) = '0' from rfl]
        rw [padZeros_single k, padZeros_single (k + 1)]
        conv_lhs => rw [replicate_zero_snoc k hk1]
        rw [Nat.add_sub_cancel]
      · have hc : natDec r =
            (natDecRev (r / 10)).reverse ++ [Char.ofNat (48 + r % 10)] := by
          rw [natDec, if_neg hrz, natDecRev_eq r hrz, List.reverse_cons]
        by_cases hq : r / 10 = 0
        · rw [hq] at hc
          rw [natDecRev_zero] at hc
          simp only [List.reverse_nil, List.nil_append] at hc
          rw [hq, show natDec 0 = ['0'] from rfl, hc]
          rw [padZeros_single k, padZeros_single (k + 1)]
          conv_lhs => rw [replicate_zero_snoc k hk1]
          rw [Nat.add_sub_cancel]
        · have hnd : natDec (r / 10) = (natDecRev (r / 10)).reverse := by
            rw [natDec, if_neg hq]
          rw [hnd, hc, padZeros, padZeros, List.append_assoc]
          congr 2
          simp only [List.length_append, List.length_cons, List.length_nil,
            List.length_reverse]
          omega

/-- Casting helper: truncated division of a cast natural by `10 ^ k`. -/
theorem tdiv_cast_pow (n k : Nat) :
    ((n : Nat) : Int).tdiv ((10 : Int) ^ k) = ((n / 10 ^ k : Nat) : Int) := by
  rw [show ((10 : Int) ^ k) = (((10 ^ k : Nat) : Nat) : Int) from by push_cast; ring,
    ← Int.ofNat_tdiv]

/-- For an in-range mantissa other than the minimum, the C++
`T val = std::abs(_value)` round-trip is the plain absolute value. -/
theorem wrapAbs_eq_natAbs (w : Nat) (v : Int) (hw : 1 ≤ w)
    (h1 : inRange w v) (h2 : v ≠ smin w) : wrapAbs w v = (v.natAbs : Int) := by
  have hpow : (2 : Int) * 2 ^ (w - 1) = 2 ^ w := by
    rw [← pow_succ']
    congr 1
    omega
  have habs : (v.natAbs : Int) ≤ smax w := by
    obtain ⟨ha1, ha2⟩ := h1
    unfold smin at ha1 h2
    unfold smax at ha2 ⊢
    omega
  rw [wrapAbs, wrap, Int.abs_eq_natAbs]
  have hmax := smax_nonneg w
  unfold smax at habs
  rw [Int.emod_eq_of_lt (by omega) (by omega)]
  omega

/-- The characters `to_string(char*, size_t)` writes coincide with the
specified decimal text whenever the absolute value of the mantissa is
computed without wraparound. -/
theorem implRender_eq_spec (w : Nat) (m s : Int)
    (habs : s < 0 → wrapAbs w m = (m.natAbs : Int)) :
    implRender w m s = specRender m s := by
  by_cases hm : m = 0
  · subst hm
    rw [implRender, if_pos rfl, specRender, if_pos rfl]
  · by_cases hs : s < 0
    · rw [implRender, if_neg hm, if_pos hs, specRender, if_neg hm, if_pos hs]
      have ha := habs hs
      have hQcast : (wrapAbs w m).tdiv ((10 : Int) ^ (-s).toNat) =
          ((m.natAbs / 10 ^ (-s).toNat : Nat) : Int) := by
        rw [ha, tdiv_cast_pow]
      have hbody : negBody w m s =
          restChars ((m.natAbs / 10 ^ (-s).toNat : Nat) : Int) ++
            '.' :: (natLowRev m.natAbs (-s).toNat).reverse := by
        rw [negBody, hQcast, ha, peelChars_cast]
      have hb2 : negBody2 w m s = natDec (m.natAbs / 10 ^ (-s).toNat) ++
          '.' :: (natLowRev m.natAbs (-s).toNat).reverse := by
        rw [negBody2, hbody, restChars_cast]
        by_cases hq : m.natAbs / 10 ^ (-s).toNat = 0
        · rw [if_pos hq, hq]
          rw [show natDec 0 = ['0'] from rfl]
          simp
        · rw [if_neg hq]
          obtain ⟨c, t, hct⟩ := List.exists_cons_of_ne_nil
            (show (natDecRev (m.natAbs / 10 ^ (-s).toNat)).reverse ≠ [] from by
              simp only [ne_eq, List.reverse_eq_nil_iff]
              rw [natDecRev_eq _ hq]
              simp)
          have hcne : c ≠ '.' := by
            have := natDec_head_ne_dot (m.natAbs / 10 ^ (-s).toNat) hq
            rw [hct] at this
            simpa using this
          rw [hct, List.cons_append, List.headD_cons, if_neg hcne]
          rw [natDec, if_neg hq, hct]
          rfl
      by_cases hneg : m < 0
      · rw [if_pos hneg, if_pos hneg, hb2]
        rfl
      · rw [if_neg hneg, if_neg hneg, hb2]
        rw [List.nil_append]
    · rw [implRender, if_neg hm, if_neg hs, specRender, if_neg hm, if_neg hs]

/-- The single-header snprintf rendering coincides with the specified
decimal text on its whole modelled domain. -/
theorem singleRender_eq_spec (m s : Int) : singleRender m s = specRender m s := by
  by_cases hm : m = 0
  · subst hm
    rw [singleRender, if_pos rfl, specRender, if_pos rfl]
  · by_cases hs : s < 0
    · rw [singleRender, if_neg hm, if_pos hs, specRender, if_neg hm, if_pos hs]
      have hk1 : 1 ≤ (-s).toNat := by omega
      have hq : intDec ((m.natAbs : Int).tdiv ((10 : Int) ^ (-s).toNat)) =
          natDec (m.natAbs / 10 ^ (-s).toNat) := by
        rw [tdiv_cast_pow, intDec,
          if_neg (by exact Int.not_lt.mpr (Int.natCast_nonneg _)), Int.natAbs_ofNat]
      have hpad : padZeros (-s).toNat (natDec (m.natAbs % 10 ^ (-s).toNat)) =
          (natLowRev m.natAbs (-s).toNat).reverse := by
        rw [natLowRev_mod, natLowRev_pad (-s).toNat hk1 (m.natAbs % 10 ^ (-s).toNat)
          (Nat.mod_lt _ (by positivity))]
      rw [hq, hpad]
    · rw [singleRender, if_neg hm, if_neg hs, specRender, if_neg hm, if_neg hs]

/-- C2 counterexample: at mantissa `-32768` (the minimum of `int16_t`) and
scale `-1`, `to_string()` does not produce the described decimal text
`"-3276.8"`: `T val = std::abs(_value)` wraps back to `-32768` and the
digit loop emits non-digit characters. -/
theorem claim_C2_counterexample :
    to_string_owned 16 (-32768) (-1) ≠ some (specRender (-32768) (-1)) := by
  decide

/-- C2 as amended: for every in-range mantissa other than the type minimum
(when the scale is negative), and whenever the described text fits the
64-character internal buffer, `to_string()` returns exactly the described
decimal text: "0" for mantissa 0 at every scale; for negative scale the
`|scale|` trailing digits of `|mantissa|` after a decimal point, with a
leading "0" when the integer part is empty and a "-" for negative
mantissa; for positive scale the mantissa digits followed by exactly
`scale` zeros; for scale 0 the mantissa rendered directly — all exact
integer arithmetic, no floating point. -/
theorem claim_C2_to_string_exact (w : Nat) (m s : Int) (hw : 1 ≤ w)
    (hm : inRange w m) (hmin : s < 0 → m ≠ smin w)
    (hlen : (specRender m s).length ≤ 64) :
    to_string_owned w m s = some (specRender m s) := by
  have hspec : implRender w m s = specRender m s :=
    implRender_eq_spec w m s (fun hs => wrapAbs_eq_natAbs w m hw hm (hmin hs))
  rw [to_string_owned]
  rw [to_string_buf_success w m s (List.replicate 64 ' ')
    (by rw [hspec, List.length_replicate]; exact hlen)]
  rw [hspec]

/-- Witness for C2: `scaled_integer<int16_t>(-42, -3)` renders as
`"-0.042"`. -/
theorem claim_C2_witness :
    to_string_owned 16 (-42) (-3) = some ['-', '0', '.', '0', '4', '2'] := by
  rw [claim_C2_to_string_exact 16 (-42) (-3) (by decide) (by decide) (by decide)
    (by decide)]
  decide

/-- C5 counterexample: `to_string(buf, 4)` on `scaled_integer<int16_t>(12345, -3)`
throws, and the caller-supplied buffer HAS been modified before the throw
(the three peeled digits and the dot were already written), refuting the
no-partial-write part of the claim. -/
theorem claim_C5_counterexample :
    (to_string_buf 16 12345 (-3) (List.replicate 4 '#')).2 = none ∧
      (to_string_buf 16 12345 (-3) (List.replicate 4 '#')).1 ≠
        List.replicate 4 '#' := by
  decide

/-- C5 as amended: whenever the buffer is smaller than the exact length of
the rendered text, `to_string(buf, size)` fails (throws) and returns no
string_view — but the buffer may have been partially overwritten by the
time of the throw. -/
theorem claim_C5_small_buffer_fails (w : Nat) (m s : Int) (buf : List Char)
    (h : buf.length < (implRender w m s).length) :
    (to_string_buf w m s buf).2 = none :=
  to_string_buf_fail w m s buf h

/-- Witness for C5: a 3-character buffer cannot hold `"1000"`. -/
theorem claim_C5_witness :
    (to_string_buf 16 1 3 (List.replicate 3 ' ')).2 = none :=
  claim_C5_small_buffer_fails 16 1 3 (List.replicate 3 ' ') (by decide)

/-- C6 counterexample: the owning `to_string()` DOES fail for length
reasons: at mantissa 1 and scale `-63` the rendered text `"0.000...1"`
needs 65 characters, more than the fixed 64-character internal buffer, and
the call throws. -/
theorem claim_C6_counterexample : to_string_owned 16 1 (-63) = none := by
  decide

/-- C6 as amended: the owning `to_string()` succeeds exactly when the text
the algorithm renders fits the fixed 64-character internal buffer; for
longer texts (possible only for large `|scale|`) it propagates the
buffer-too-small exception. -/
theorem claim_C6_owned_succeeds_iff (w : Nat) (m s : Int) :
    (to_string_owned w m s).isSome ↔ (implRender w m s).length ≤ 64 := by
  constructor
  · intro h
    by_contra hlen
    have hfail := to_string_buf_fail w m s (List.replicate 64 ' ')
      (by rw [List.length_replicate]; omega)
    rw [to_string_owned, viewOf, hfail] at h
    simp at h
  · intro hlen
    rw [to_string_owned, to_string_buf_success w m s (List.replicate 64 ' ')
      (by rw [List.length_replicate]; exact hlen)]
    rfl

/-- C9 counterexample: at mantissa `-32768` (minimum of `int16_t`) and
scale `-2`, the digit-peeling `to_string` of include/types.hpp and the
snprintf-based one of single/firebird.hpp disagree even with a spacious
buffer: the former emits wrap-around garbage, the latter `"-327.68"`. -/
theorem claim_C9_counterexample :
    viewOf (to_string_buf 16 (-32768) (-2) (List.replicate 64 ' ')) ≠
      some (singleRender (-32768) (-2)) := by
  decide

/-- C9 as amended: for every in-range mantissa other than the type minimum
(when the scale is negative) and `scale ≥ -18` (the domain on which the
`std::pow`-based variant is well defined and exact), the two `to_string`
implementations agree: with any buffer large enough for the text, the
buffer variant of include/types.hpp returns exactly the character sequence
the single-header snprintf variant produces. -/
theorem claim_C9_implementations_agree (w : Nat) (m s : Int) (N : Nat)
    (hw : 1 ≤ w) (hw64 : w ≤ 64) (hm : inRange w m)
    (hmin : s < 0 → m ≠ smin w) (h18 : -18 ≤ s)
    (hlen : (singleRender m s).length ≤ N) :
    viewOf (to_string_buf w m s (List.replicate N ' ')) =
      some (singleRender m s) := by
  have hspec : implRender w m s = singleRender m s := by
    rw [implRender_eq_spec w m s (fun hs => wrapAbs_eq_natAbs w m hw hm (hmin hs)),
      singleRender_eq_spec]
  rw [to_string_buf_success w m s (List.replicate N ' ')
    (by rw [hspec, List.length_replicate]; exact hlen)]
  rw [hspec]

/-- Witness for C9: both implementations render
`scaled_integer<int16_t>(1579, -1)` as `"157.9"` with a 64-character
buffer. -/
theorem claim_C9_witness :
    viewOf (to_string_buf 16 1579 (-1) (List.replicate 64 ' ')) =
      some ['1', '5', '7', '.', '9'] := by
  rw [claim_C9_implementations_agree 16 1579 (-1) 64 (by decide) (by decide)
    (by decide) (by decide) (by decide) (by decide)]
  decide

/-! ## type_converter for arithmetic targets (include/types.hpp 252-284) -/

/-- Decimal digit test for the from_chars pattern. -/
def isDigitChar (c : Char) : Bool := decide ('0' ≤ c) && decide (c ≤ '9')

/-- Value of a digit run, most significant digit first. -/
def digitsVal (ds : List Char) : Nat :=
  ds.foldl (fun a c => a * 10 + (c.toNat - 48)) 0

/-- The optional leading minus sign of the from_chars pattern: whether it
is present, and the text after it. -/
def fromCharsSign (text : List Char) : Bool × List Char :=
  match text with
  | [] => (false, [])
  | c :: r => if c = '-' then (true, r) else (false, c :: r)

/-- Model of `type_converter<T>::operator()(std::string_view)` for a
signed integer type of width `w` (types.hpp 274-283): `std::from_chars`
matches an optional minus sign followed by the longest nonempty digit run;
no pattern (`std::errc::invalid_argument`) or an out-of-range value
(`std::errc::result_out_of_range`) makes the converter throw, modelled as
`none`. Characters after the matched pattern are ignored, exactly as the
C++ ignores the pointer `from_chars` returns. -/
def convertStringToInt (w : Nat) (text : List Char) : Option Int :=
  let p := fromCharsSign text
  let ds := p.2.takeWhile isDigitChar
  if ds.isEmpty then none
  else
    let v : Int := (if p.1 then -1 else 1) * (digitsVal ds : Int)
    if v < smin w ∨ smax w < v then none else some v

/-- The whole text is a well-formed decimal integer of width `w`: an
optional minus sign, then one or more digits and nothing else, with the
value inside the type's range — the specification's notion of a valid
representation of a number of type `T`. -/
def isValidIntText (w : Nat) (text : List Char) : Bool :=
  let p := fromCharsSign text
  !p.2.isEmpty && p.2.all isDigitChar &&
    decide (inRange w ((if p.1 then -1 else 1) * (digitsVal p.2 : Int)))

/-- The number a junk-free signed digit text denotes. -/
def intTextValue (text : List Char) : Int :=
  let p := fromCharsSign text
  (if p.1 then -1 else 1) * (digitsVal p.2 : Int)

/-- A list all of whose elements satisfy the predicate is its own longest
matching prefix. -/
theorem takeWhile_of_all {p : Char → Bool} : ∀ l : List Char,
    (∀ c ∈ l, p c) → l.takeWhile p = l := by
  intro l h
  induction l with
  | nil => rfl
  | cons c rest ih =>
    rw [List.takeWhile_cons_of_pos (h c (List.mem_cons_self c rest))]
    rw [ih (fun d hd => h d (List.mem_cons_of_mem c hd))]

/-- C7 counterexample: the text `"12x"` is not a valid representation of a
number, yet the converter silently returns 12 — `from_chars` parses the
longest numeric prefix and the code never checks the returned pointer. -/
theorem claim_C7_counterexample :
    convertStringToInt 32 ['1', '2', 'x'] = some 12 ∧
      isValidIntText 32 ['1', '2', 'x'] = false := by
  decide

/-- C7 as amended: for every integral target width and text, the converter
returns the parsed value of every well-formed numeric text, and it fails
with ConversionError only when the text has no numeric prefix at all or
the value is out of range — malformed texts with a well-formed numeric
prefix are accepted silently, yielding the prefix's value. -/
theorem claim_C7_string_conversion (w : Nat) (text : List Char) :
    (isValidIntText w text = true →
      convertStringToInt w text = some (intTextValue text)) ∧
    (convertStringToInt w text = none → isValidIntText w text = false) := by
  constructor
  · intro hval
    rcases hp : fromCharsSign text with ⟨neg, rest⟩
    rw [isValidIntText, hp] at hval
    simp only [Bool.and_eq_true, Bool.not_eq_eq_eq_not, Bool.not_true,
      decide_eq_true_eq, List.all_eq_true] at hval
    obtain ⟨⟨hne, hdig⟩, hrange⟩ := hval
    rw [convertStringToInt, hp, intTextValue, hp]
    simp only []
    rw [takeWhile_of_all rest hdig]
    rw [if_neg (by
      intro hempty
      rw [hempty] at hne
      simp at hne)]
    rw [if_neg (by
      obtain ⟨hr1, hr2⟩ := hrange
      omega)]
  · intro hnone
    cases hb : isValidIntText w text with
    | false => rfl
    | true =>
      exfalso
      rcases hp : fromCharsSign text with ⟨neg, rest⟩
      rw [isValidIntText, hp] at hb
      simp only [Bool.and_eq_true, Bool.not_eq_eq_eq_not, Bool.not_true,
        decide_eq_true_eq, List.all_eq_true] at hb
      obtain ⟨⟨hne, hdig⟩, hrange⟩ := hb
      rw [convertStringToInt, hp] at hnone
      simp only [] at hnone
      rw [takeWhile_of_all rest hdig] at hnone
      rw [if_neg (by
        intro hempty
        rw [hempty] at hne
        simp at hne)] at hnone
      rw [if_neg (by
        obtain ⟨hr1, hr2⟩ := hrange
        omega)] at hnone
      cases hnone

/-- Witness for C7: the well-formed text `"-123"` parses to `-123` at
width 32. -/
theorem claim_C7_witness :
    convertStringToInt 32 ['-', '1', '2', '3'] = some (-123) := by
  rw [(claim_C7_string_conversion 32 ['-', '1', '2', '3']).1 (by decide)]
  decide

/-! ## Tagged-value conversion: sqlvar::visit over field_t
(include/sqlvar.hpp 216-225, include/types.hpp 243-310) -/

/-- One alternative of the `field_t` variant (types.hpp 226-236). The
`scaled_integer` alternatives are indexed by their mantissa bit width
(16, 32 or 64); float and double payloads are opaque bit patterns, since
floating-point values lie outside this integer embedding. -/
inductive field
  | null
  | text (s : String)
  | si (w : Nat) (m sc : Int)
  | flt (bits : Nat)
  | dbl (bits : Nat)
  | ts (d t : Int)
  | blob (hi lo : Int)

/-- The requested target type of `sqlvar::visit<T>`: integral arithmetic
types by bit width, the floating-point types, `std::string`,
`std::string_view`, the `scaled_integer` instantiations, `timestamp_t`,
`blob_id_t` and `std::nullptr_t`. -/
inductive target
  | tInt (w : Nat)
  | tFloat
  | tDouble
  | tString
  | tStringView
  | tSi (w : Nat)
  | tTimestamp
  | tBlob
  | tNull

/-- The name `type_name<T>()` interpolates into a message (the exact
spelling is compiler dependent; only which names appear matters here). -/
def targetName : target → String
  | .tInt w => "int" ++ toString w ++ "_t"
  | .tFloat => "float"
  | .tDouble => "double"
  | .tString => "std::string"
  | .tStringView => "std::string_view"
  | .tSi w => "scaled_integer<int" ++ toString w ++ "_t>"
  | .tTimestamp => "timestamp_t"
  | .tBlob => "ISC_QUAD"
  | .tNull => "std::nullptr_t"

/-- The structured content of the `fb::exception` messages the conversion
layer can throw. `cantConvertTo` is the visit catch-all
(sqlvar.hpp 221-222), whose message names only the requested type;
`scaledFit` is `scaled_integer::error<U>` (types.hpp 159-165), naming the
source type, its scale and the target; `parseFail` is the from_chars
failure (types.hpp 280-282); `tooSmallBuffer` comes from `to_string`. -/
inductive conv_error
  | cantConvertTo (tgt : String)
  | scaledFit (src : String) (sc : Int) (tgt : String)
  | parseFail (text : String) (tgt : String)
  | tooSmallBuffer

/-- A successfully converted value. -/
inductive conv_res
  | null
  | sview (s : String)
  | si (w : Nat) (m sc : Int)
  | ts (d t : Int)
  | blob (hi lo : Int)
  | int (w : Nat) (v : Int)
  | str (s : String)
  | floatText (bits : Nat)

/-- Model of `sqlvar::visit<T>` (sqlvar.hpp 216-225): `std::visit` over
the field with the overload set `{type_converter<T>{}, catch-all}`,
resolved per C++ overload resolution over the operators each
`type_converter` specialisation defines (types.hpp 243-310). The outer
`Option` marks the modelled domain: `none` for outcomes that depend on
floating-point arithmetic (`get<float>`, `from_chars` to float) or are
undefined behaviour in the C++ (`std::string_view(nullptr)` — a null
field converts to `string_view` through the non-explicit
`const char*` constructor and wins resolution over the catch-all). -/
def convert (t : target) (f : field) : Option (Except conv_error conv_res) :=
  match t, f with
  | .tInt w, .si w' m sc =>
      some (match get w' w m sc with
        | some v => .ok (.int w v)
        | none => .error (.scaledFit (targetName (.tInt w')) sc (targetName (.tInt w))))
  | .tInt w, .text s =>
      some (match convertStringToInt w s.data with
        | some v => .ok (.int w v)
        | none => .error (.parseFail s (targetName (.tInt w))))
  | .tInt _, .null => none
  | .tInt w, _ => some (.error (.cantConvertTo (targetName (.tInt w))))
  | .tFloat, .si w' _ sc =>
      if 32 < w' then
        some (.error (.scaledFit (targetName (.tInt w')) sc (targetName .tFloat)))
      else none
  | .tFloat, .text _ => none
  | .tFloat, .null => none
  | .tFloat, _ => some (.error (.cantConvertTo (targetName .tFloat)))
  | .tDouble, .si _ _ _ => none
  | .tDouble, .text _ => none
  | .tDouble, .null => none
  | .tDouble, _ => some (.error (.cantConvertTo (targetName .tDouble)))
  | .tString, .text s => some (.ok (.str s))
  | .tString, .flt b => some (.ok (.floatText b))
  | .tString, .dbl b => some (.ok (.floatText b))
  | .tString, .si w m sc =>
      some (match to_string_owned w m sc with
        | some cs => .ok (.str (String.mk cs))
        | none => .error .tooSmallBuffer)
  | .tString, .null => none
  | .tString, _ => some (.error (.cantConvertTo (targetName .tString)))
  | .tStringView, .text s => some (.ok (.sview s))
  | .tStringView, .null => none
  | .tStringView, _ => some (.error (.cantConvertTo (targetName .tStringView)))
  | .tSi w, .si w' m sc =>
      if w' = w then some (.ok (.si w m sc))
      else some (.error (.cantConvertTo (targetName (.tSi w))))
  | .tSi w, _ => some (.error (.cantConvertTo (targetName (.tSi w))))
  | .tTimestamp, .ts d t2 => some (.ok (.ts d t2))
  | .tTimestamp, _ => some (.error (.cantConvertTo (targetName .tTimestamp)))
  | .tBlob, .blob hi lo => some (.ok (.blob hi lo))
  | .tBlob, _ => some (.error (.cantConvertTo (targetName .tBlob)))
  | .tNull, .null => some (.ok .null)
  | .tNull, _ => some (.error (.cantConvertTo (targetName .tNull)))

/-- C8 counterexample: the identity conversion on a float field fails —
`type_converter<float>` (the arithmetic specialisation) has no
`operator()(float)`, so `std::visit` falls through to the catch-all and
throws; and for an unhandled pair such as timestamp → int32_t the
catch-all error names only the requested type, not the source. -/
theorem claim_C8_counterexample :
    convert .tFloat (.flt 0) = some (.error (.cantConvertTo "float")) ∧
      convert (.tInt 32) (.ts 0 0) = some (.error (.cantConvertTo "int32_t")) := by
  constructor
  · rfl
  · rfl

/-- C8 as amended: identity conversions succeed unchanged for every
non-arithmetic field case — text to `string_view`, each `scaled_integer`
instantiation to itself, timestamp, blob and null — but for the arithmetic
cases float and double even the identity conversion fails with a
ConversionError; every unhandled source/target pair fails with the
catch-all ConversionError, which names the requested target type only. -/
theorem claim_C8_identity_and_unhandled :
    (∀ s, convert .tStringView (.text s) = some (.ok (.sview s))) ∧
    (∀ w m sc, convert (.tSi w) (.si w m sc) = some (.ok (.si w m sc))) ∧
    (∀ d t, convert .tTimestamp (.ts d t) = some (.ok (.ts d t))) ∧
    (∀ hi lo, convert .tBlob (.blob hi lo) = some (.ok (.blob hi lo))) ∧
    (convert .tNull .null = some (.ok .null)) ∧
    (∀ b, convert .tFloat (.flt b) =
      some (.error (.cantConvertTo (targetName .tFloat)))) ∧
    (∀ b, convert .tDouble (.dbl b) =
      some (.error (.cantConvertTo (targetName .tDouble)))) ∧
    (∀ w d t, convert (.tInt w) (.ts d t) =
      some (.error (.cantConvertTo (targetName (.tInt w))))) ∧
    (∀ w s, convert (.tSi w) (.text s) =
      some (.error (.cantConvertTo (targetName (.tSi w))))) ∧
    (∀ d t, convert .tString (.ts d t) =
      some (.error (.cantConvertTo (targetName .tString)))) := by
  refine ⟨fun s => rfl, fun w m sc => ?_, fun d t => rfl, fun hi lo => rfl, rfl,
    fun b => rfl, fun b => rfl, fun w d t => rfl, fun w s => rfl, fun d t => rfl⟩
  rw [convert]
  rw [if_pos rfl]

/-! ## timestamp_t (include/types.hpp 23-80) -/

/-- Model of `fb::timestamp_t` (an ISC_TIMESTAMP). The vendor header
ibase.h defining the exact field typedefs is not part of this repository;
the fields are modelled as unbounded integers carrying the values the
code's arithmetic produces. -/
structure timestamp_t where
  timestamp_date : Int
  timestamp_time : Int

/-- Model of `timestamp_t::to_time_t` (types.hpp 31-33):
`std::max(int(timestamp_date) - 40587, 0) * 86400 + timestamp_time / 10'000`
(40587 days from the GDS epoch 1858-11-17 to 1970-01-01; the division of
the sub-day time unit is exact integer division). -/
def to_time_t (ts : timestamp_t) : Int :=
  max (ts.timestamp_date - 40587) 0 * 86400 + ts.timestamp_time.tdiv 10000

/-- Model of `timestamp_t::from_time_t` (types.hpp 52-58):
`timestamp_date = t / 86400 + 40587; timestamp_time = (t % 86400) * 10'000`
with C++ truncating division and remainder on `time_t`. -/
def from_time_t (t : Int) : timestamp_t :=
  { timestamp_date := t.tdiv 86400 + 40587
    timestamp_time := t.tmod 86400 * 10000 }

/-- C10: for every nonnegative time value the pair
`from_time_t` / `to_time_t` is a round trip at second granularity. -/
theorem claim_C10_time_round_trip (t : Int) (ht : 0 ≤ t) :
    to_time_t (from_time_t t) = t := by
  rw [to_time_t, from_time_t]
  simp only []
  rw [Int.add_sub_cancel]
  rw [max_eq_left (Int.tdiv_nonneg ht (by norm_num))]
  rw [Int.mul_tdiv_cancel _ (by norm_num : (10000 : Int) ≠ 0)]
  exact Int.tdiv_add_tmod' t 86400

/-- Witness for C10 at the test suite's value 2024-06-07 22:06:10 UTC. -/
theorem claim_C10_witness :
    to_time_t (from_time_t 1717797970) = 1717797970 :=
  claim_C10_time_round_trip 1717797970 (by decide)
